import Mathlib

/-!
Verification of the tree-navigation and path-addressing engine of the
json-mapper repository, shallowly embedded in Lean 4.

JavaScript strings are modelled by `String` (a list of `Char`), JS `Set` of
strings by `Finset String` (store state) or insertion-ordered `List String`
(filter results), JSON documents by the mutual inductive `JsonValue`, and JSON
numbers by `Int` with decimal stringification (the repository only ever
stringifies numbers for substring matching; IEEE-754 formatting is out of
scope for the claims treated here).
-/

set_option maxRecDepth 4000

namespace JsonMapper

/-- The four addressing syntaxes of `src/utils/pathGenerator.ts`
(`PathFormat` in the source). -/
inductive PathFormat where
  | jmespath
  | jsonpath
  | javascript
  | python
deriving DecidableEq, Repr

/-- One path segment, as in the source:
`{ key: string; isArrayIndex: boolean }`. -/
structure Segment where
  key : String
  isArrayIndex : Bool
deriving DecidableEq, Repr

/-- The character class of the JS regex `\s` (as used by
`/[.\[\]\s-]/` in `escapeKey`). -/
def isJsWhitespace (c : Char) : Bool :=
  c == ' ' || c == '\t' || c == '\n' || c == '\r' || c == '\x0b' ||
  c == '\x0c' || c == ' ' || c == ' ' ||
  (' ' ≤ c && c ≤ ' ') || c == ' ' || c == ' ' ||
  c == ' ' || c == ' ' || c == '　' || c == '﻿'

/-- A character matched by the class `[.\[\]\s-]` of `escapeKey`. -/
def isPathSpecial (c : Char) : Bool :=
  c == '.' || c == '[' || c == ']' || isJsWhitespace c || c == '-'

/-- `escapeKey`: `/[.\[\]\s-]/.test(key) || /^\d+$/.test(key)`. -/
def needsEscapeB (k : String) : Bool :=
  k.data.any isPathSpecial || (!k.data.isEmpty && k.data.all Char.isDigit)

/-- `key.replace(/"/g, CharBackslashDoubleQuote)` at character level. -/
def escDouble (l : List Char) : List Char :=
  l.flatMap fun c => if c == '"' then ['\\', '"'] else [c]

/-- `key.replace(/{single quote}/g, backslash-single-quote)` at character level. -/
def escSingle (l : List Char) : List Char :=
  l.flatMap fun c => if c == '\x27' then ['\\', '\x27'] else [c]

/-- `escapeKey(key, format)` of `src/utils/pathGenerator.ts`. -/
def escapeKey (key : String) (format : PathFormat) : String :=
  match format with
  | .jmespath =>
      if needsEscapeB key then "\"" ++ String.mk (escDouble key.data) ++ "\"" else key
  | .jsonpath =>
      "[\x27" ++ String.mk (escSingle key.data) ++ "\x27]"
  | .javascript =>
      if needsEscapeB key then "[\x27" ++ String.mk (escSingle key.data) ++ "\x27]"
      else "." ++ key
  | .python =>
      "[\x27" ++ String.mk (escSingle key.data) ++ "\x27]"

/-- JS `s.startsWith(pre)`, as a character-wise prefix test. -/
def jsStartsWith (s pre : String) : Bool :=
  pre.data.isPrefixOf s.data

/-- The text `generatePath` appends for the segment at position `i`
(the body of the `segments.forEach` loop). -/
def pieceStr (format : PathFormat) (i : Nat) (seg : Segment) : String :=
  if seg.isArrayIndex then "[" ++ seg.key ++ "]"
  else if i = 0 then
    match format with
    | .jsonpath => "$" ++ escapeKey seg.key .jsonpath
    | .javascript => seg.key
    | .python => seg.key
    | .jmespath => escapeKey seg.key .jmespath
  else
    let escaped := escapeKey seg.key format
    if format = .javascript ∧ ¬(jsStartsWith escaped "[" = true) then escaped
    else if format = .jmespath ∧ ¬(jsStartsWith escaped "\"" = true) then "." ++ escaped
    else escaped

/-- The `forEach` accumulation of `generatePath`, with `i` the index of the
first remaining segment. -/
def genAux (format : PathFormat) : Nat → List Segment → String
  | _, [] => ""
  | i, s :: rest => pieceStr format i s ++ genAux format (i + 1) rest

/-- `generatePath(segments, format)` of `src/utils/pathGenerator.ts`
(the early `if (segments.length === 0) return ""` included). -/
def generatePath (segments : List Segment) (format : PathFormat) : String :=
  if segments.isEmpty then "" else genAux format 0 segments

/-- A character the regex class `[^.\[\]]` of `parsePath` accepts. -/
def keyChar (c : Char) : Bool :=
  !(c == '.' || c == '[' || c == ']')

/-- `"` or the single-quote character. -/
def isQuote (c : Char) : Bool :=
  c == '"' || c == '\x27'

/-- `match[1].replace(/^["]...|["]...$/g, "")`: one enclosing quote character
is stripped from each end (the JS regex removes at most one leading and one
trailing quote). -/
def stripQuotes (l : List Char) : List Char :=
  let l1 := match l with
    | [] => []
    | c :: rest => if isQuote c then rest else c :: rest
  match l1.reverse with
  | [] => l1
  | c :: rest => if isQuote c then rest.reverse else l1

/-- The scanning loop of `parsePath`: repeated leftmost-first matching of the
JS regex with two ordered alternatives, an optional-dot key token
(`[^.\[\]]+` possibly preceded by a dot) and a bracketed digit run; positions
where neither alternative matches are skipped one character at a time. -/
def scan (l : List Char) : List Segment :=
  match l with
  | [] => []
  | c :: cs =>
    if keyChar c then
      Segment.mk (String.mk (stripQuotes (c :: cs.takeWhile keyChar))) false
        :: scan (cs.dropWhile keyChar)
    else if c == '.' then
      match cs with
      | [] => []
      | d :: ds =>
        if keyChar d then
          Segment.mk (String.mk (stripQuotes (d :: ds.takeWhile keyChar))) false
            :: scan (ds.dropWhile keyChar)
        else scan (d :: ds)
    else if c == '[' then
      if !(cs.takeWhile Char.isDigit).isEmpty
          && ((cs.dropWhile Char.isDigit).head? == some ']') then
        Segment.mk (String.mk (cs.takeWhile Char.isDigit)) true
          :: scan ((cs.dropWhile Char.isDigit).tail)
      else scan cs
    else scan cs
termination_by l.length
decreasing_by
  all_goals
    simp only [List.length_cons, List.length_tail]
    first
    | omega
    | exact Nat.lt_succ_of_le (List.IsSuffix.length_le (List.dropWhile_suffix _))
    | exact Nat.lt_succ_of_le
        (Nat.le_trans (Nat.sub_le _ _) (List.IsSuffix.length_le (List.dropWhile_suffix _)))
    | exact Nat.lt_succ_of_le
        (Nat.le_succ_of_le (List.IsSuffix.length_le (List.dropWhile_suffix _)))

/-- `parsePath(path)` of `src/utils/pathGenerator.ts`: strip one leading `$`,
then run the regex scan. -/
def parsePath (path : String) : List Segment :=
  let cleanData := match path.data with
    | '$' :: rest => rest
    | l => l
  scan cleanData

mutual

/-- A JSON document (`JsonValue` in the source).  Arrays and objects carry
their children through the companion types `JsonArr` / `JsonObj` so that all
traversals are plain mutual structural recursions.  Numbers are modelled by
`Int`; the repository only stringifies them for substring matching. -/
inductive JsonValue where
  | null
  | bool (b : Bool)
  | num (n : Int)
  | str (s : String)
  | arr (elems : JsonArr)
  | obj (fields : JsonObj)
deriving DecidableEq, Repr

/-- The element list of a JSON array, in document order. -/
inductive JsonArr where
  | nil
  | cons (hd : JsonValue) (tl : JsonArr)
deriving DecidableEq, Repr

/-- The field list of a JSON object, in insertion order (duplicate keys do not
occur in parsed JSON). -/
inductive JsonObj where
  | nil
  | cons (key : String) (val : JsonValue) (tl : JsonObj)
deriving DecidableEq, Repr

end

/-- JS `String.prototype.toLowerCase` (simple per-character folding). -/
def jsToLower (s : String) : String :=
  String.mk (s.data.map Char.toLower)

/-- Substring scan: does `sub` occur (contiguously) in the haystack? -/
def includesAux (sub : List Char) : List Char → Bool
  | [] => sub.isEmpty
  | c :: cs => sub.isPrefixOf (c :: cs) || includesAux sub cs

/-- JS `s.includes(sub)`: substring containment. -/
def jsIncludes (s sub : String) : Bool :=
  includesAux sub.data s.data

/-- JS `s.trim()`. -/
def jsTrim (s : String) : String :=
  String.mk (((s.data.dropWhile isJsWhitespace).reverse.dropWhile isJsWhitespace).reverse)

/-- The `matches(text)` helper of `getMatchingPaths` in `src/utils/filter`:
substring containment, case-folded unless `caseSensitive`. -/
def jsMatches (caseSensitive : Bool) (query text : String) : Bool :=
  jsIncludes (if caseSensitive then text else jsToLower text)
    (if caseSensitive then query else jsToLower query)

/-- `Set.add` on an insertion-ordered set of strings. -/
def setAdd (l : List String) (x : String) : List String :=
  if l.contains x then l else l ++ [x]

/-- JS `String(value)` for the primitive values the filter traversal
stringifies (the non-null, non-array, non-object branch). -/
def primString : JsonValue → String
  | .str s => s
  | .num n => toString n
  | .bool b => if b then "true" else "false"
  | _ => ""

mutual

/-- The `traverse(value, segments)` closure of `getMatchingPaths`, with the
accumulated match set threaded in document order. -/
def gmVal (q : String) (cs : Bool) (fmt : PathFormat) :
    JsonValue → List Segment → List String → List String
  | v, segs, acc =>
    let currentPath := if segs.length > 0 then generatePath segs fmt else ""
    let acc1 := match segs.getLast? with
      | some lastSeg => if jsMatches cs q lastSeg.key then setAdd acc currentPath else acc
      | none => acc
    match v with
    | .null => if jsMatches cs q "null" then setAdd acc1 currentPath else acc1
    | .arr xs => gmArr q cs fmt xs 0 segs acc1
    | .obj fs => gmObj q cs fmt fs segs acc1
    | .str s => if jsMatches cs q s then setAdd acc1 currentPath else acc1
    | .num n => if jsMatches cs q (primString (.num n)) then setAdd acc1 currentPath else acc1
    | .bool b => if jsMatches cs q (primString (.bool b)) then setAdd acc1 currentPath else acc1

/-- `value.forEach((item, index) => traverse(item, ...))` over an array. -/
def gmArr (q : String) (cs : Bool) (fmt : PathFormat) :
    JsonArr → Nat → List Segment → List String → List String
  | .nil, _, _, acc => acc
  | .cons hd tl, idx, segs, acc =>
      gmArr q cs fmt tl (idx + 1) segs
        (gmVal q cs fmt hd (segs ++ [Segment.mk (toString idx) true]) acc)

/-- `Object.entries(value).forEach(([key, val]) => traverse(val, ...))`. -/
def gmObj (q : String) (cs : Bool) (fmt : PathFormat) :
    JsonObj → List Segment → List String → List String
  | .nil, _, acc => acc
  | .cons k val tl, segs, acc =>
      gmObj q cs fmt tl segs
        (gmVal q cs fmt val (segs ++ [Segment.mk k false]) acc)

end

/-- `getMatchingPaths(data, query, pathFormat, { caseSensitive })` of
`src/utils/filter` (part_005), as an insertion-ordered set of path strings. -/
def getMatchingPaths (data : JsonValue) (query : String) (fmt : PathFormat)
    (caseSensitive : Bool) : List String :=
  if (jsTrim query).data.isEmpty then [] else gmVal query caseSensitive fmt data [] []

/-- `shouldShowNode(nodePath, matchingPaths)` of `src/utils/filter`
(part_005, lines 75-98). -/
def shouldShowNode (nodePath : String) (matchingPaths : List String) : Bool :=
  if matchingPaths.isEmpty then true
  else if matchingPaths.contains nodePath then true
  else matchingPaths.any fun m =>
    jsStartsWith m (nodePath ++ ".") || jsStartsWith m (nodePath ++ "[")

/-- Modelled from the spec: the `hideEmpty`-aware `shouldShowNode`.  The
filter module under `src` defines only the two-parameter `shouldShowNode`
above, while its caller (`JsonTreeNode` in `TableView.tsx`, line 304) passes
`emptyPaths` and `hideEmpty` as third and fourth arguments, and imports a
`getEmptyPaths` from the same module that is absent from `src`; the
four-parameter version is therefore missing from the snapshot.  Its rule is
taken verbatim from spec section 4.3: base visibility as in `shouldShowNode`,
and the emptiness rule additionally suppresses nodes whose own path is in
`emptyPaths`, unless that path is also in `matchingPaths` (a match is never
hidden by the empty rule). -/
def shouldShowNodeHideEmpty (nodePath : String)
    (matchingPaths emptyPaths : List String) (hideEmpty : Bool) : Bool :=
  shouldShowNode nodePath matchingPaths &&
    !(hideEmpty && emptyPaths.contains nodePath && !matchingPaths.contains nodePath)

/-- `metadata` of the store: `{ nodeCount, maxDepth }`. -/
structure JsonMetadata where
  nodeCount : Nat
  maxDepth : Nat
deriving DecidableEq, Repr

/-- `activeFeature` of the store. -/
inductive ActiveFeature where
  | viewer
  | query
  | convert
deriving DecidableEq, Repr

/-- `viewerMode` of the store. -/
inductive ViewerMode where
  | json
  | tree
deriving DecidableEq, Repr

/-- `extractionMode` of the store. -/
inductive ExtractionMode where
  | paths
  | keys
  | values
deriving DecidableEq, Repr

/-- One `Bookmark` (fields as created by `addBookmark`). -/
structure Bookmark where
  id : String
  path : String
  value : JsonValue
  pathFormat : PathFormat
  timestamp : Nat
  type : String
  targetPath : String
  transformation : String
  notes : String
deriving DecidableEq, Repr

/-- One `ImportHistoryItem` (`id` and `timestamp` are generated by
`addToHistory`; the remaining payload is summarised as `label`). -/
structure ImportHistoryItem where
  id : String
  timestamp : Nat
  label : String
deriving DecidableEq, Repr

/-- The zustand store state of `src/store/appStore.ts` (data fields only;
the action closures become the functions below).  JS `Set<string>` fields are
modelled as `Finset String`, `null`-able fields as `Option`. -/
structure AppState where
  jsonData : Option JsonValue
  originalText : Option String
  fileSize : Option Nat
  isLoading : Bool
  loadingProgress : Nat
  loadingMessage : String
  error : Option String
  metadata : Option JsonMetadata
  currentPath : Option String
  hoverPath : Option String
  hoverPosition : Option (Nat × Nat)
  pathFormat : PathFormat
  activeFeature : ActiveFeature
  viewerMode : ViewerMode
  extractionMode : ExtractionMode
  filterQuery : String
  caseSensitive : Bool
  hideEmpty : Bool
  truncateValues : Bool
  isFilterOpen : Bool
  searchQuery : String
  searchCaseSensitive : Bool
  isSearchOpen : Bool
  currentSearchIndex : Nat
  searchMatchCount : Nat
  expandedPaths : Finset String
  collapsedPaths : Finset String
  importHistory : List ImportHistoryItem
  showCopyNotification : Bool
  copyMessage : String
  bookmarks : List Bookmark
  isBookmarksOpen : Bool
  isShortcutsOpen : Bool
deriving DecidableEq

/-- The initial store state (the literal field values of `create(...)`;
`bookmarks` starts as whatever `loadBookmarks()` returns from the external
key-value store, taken as empty here). -/
def defaultState : AppState where
  jsonData := none
  originalText := none
  fileSize := none
  isLoading := false
  loadingProgress := 0
  loadingMessage := ""
  error := none
  metadata := none
  currentPath := none
  hoverPath := none
  hoverPosition := none
  pathFormat := .jmespath
  activeFeature := .viewer
  viewerMode := .tree
  extractionMode := .paths
  filterQuery := ""
  caseSensitive := false
  hideEmpty := false
  truncateValues := true
  isFilterOpen := false
  searchQuery := ""
  searchCaseSensitive := false
  isSearchOpen := false
  currentSearchIndex := 0
  searchMatchCount := 0
  expandedPaths := ∅
  collapsedPaths := ∅
  importHistory := []
  showCopyNotification := false
  copyMessage := ""
  bookmarks := []
  isBookmarksOpen := false
  isShortcutsOpen := false

/-- `togglePath(path)` of `src/store/appStore.ts` (lines 202-228). -/
def togglePath (s : AppState) (path : String) : AppState :=
  if "__EXPAND_ALL__" ∈ s.expandedPaths ∨ "__EXPAND_TO_DEPTH_2__" ∈ s.expandedPaths then
    { s with collapsedPaths :=
        if path ∈ s.collapsedPaths then s.collapsedPaths.erase path
        else insert path s.collapsedPaths }
  else
    { s with
        expandedPaths :=
          if path ∈ s.expandedPaths then s.expandedPaths.erase path
          else insert path s.expandedPaths,
        collapsedPaths := ∅ }

/-- `expandAll()` of `src/store/appStore.ts` (lines 229-236);
`state.metadata?.nodeCount && state.metadata.nodeCount > 5000` with JS
truthiness made explicit. -/
def expandAll (s : AppState) : AppState :=
  let isLargeFile : Bool := match s.metadata with
    | none => false
    | some m => decide (m.nodeCount ≠ 0) && decide (m.nodeCount > 5000)
  if isLargeFile then
    { s with expandedPaths := {"__EXPAND_TO_DEPTH_2__"}, collapsedPaths := ∅ }
  else
    { s with expandedPaths := {"__EXPAND_ALL__"}, collapsedPaths := ∅ }

/-- `collapseAll()` of `src/store/appStore.ts` (line 237). -/
def collapseAll (s : AppState) : AppState :=
  { s with expandedPaths := ∅, collapsedPaths := ∅ }

/-- `clearJsonData()` of `src/store/appStore.ts` (lines 284-298). -/
def clearJsonData (s : AppState) : AppState :=
  { s with
      jsonData := none
      originalText := none
      fileSize := none
      metadata := none
      currentPath := none
      hoverPosition := none
      filterQuery := ""
      searchQuery := ""
      expandedPaths := ∅
      collapsedPaths := ∅
      error := none
      loadingProgress := 0
      loadingMessage := "" }

/-- `parentPath.split(/[.\[\]]/)`: cut at every `.`, `[`, `]`. -/
def splitDelimsAux : List Char → List Char → List (List Char)
  | [], acc => [acc.reverse]
  | c :: cs, acc =>
      if c == '.' || c == '[' || c == ']' then acc.reverse :: splitDelimsAux cs []
      else splitDelimsAux cs (c :: acc)

/-- `parentPath.split(/[.\[\]]/).filter(Boolean)` of `expandSubtree`. -/
def splitOnDelims (s : String) : List String :=
  ((splitDelimsAux s.data []).filter (fun l => !l.isEmpty)).map String.mk

/-- JS `parseInt(seg)`: skip leading whitespace, optional sign, then a
decimal digit run (`0x` hex handled as JS does); `none` models `NaN`. -/
def jsParseInt (s : String) : Option Int :=
  let l := s.data.dropWhile isJsWhitespace
  let (sign, l1) : Int × List Char := match l with
    | '-' :: rest => (-1, rest)
    | '+' :: rest => (1, rest)
    | rest => (1, rest)
  let (radix, l2) : Nat × List Char := match l1 with
    | '0' :: 'x' :: rest => (16, rest)
    | '0' :: 'X' :: rest => (16, rest)
    | rest => (10, rest)
  let digits := l2.takeWhile fun c =>
    if radix = 16 then c.isDigit || ('a' ≤ c && c ≤ 'f') || ('A' ≤ c && c ≤ 'F')
    else c.isDigit
  if digits.isEmpty then none
  else some (sign * Int.ofNat (digits.foldl (fun acc c =>
    acc * radix + (if c.isDigit then c.toNat - '0'.toNat
      else if 'a' ≤ c ∧ c ≤ 'f' then c.toNat - 'a'.toNat + 10
      else c.toNat - 'A'.toNat + 10)) 0))

/-- `arr.length` for the embedded array spine. -/
def arrLen : JsonArr → Nat
  | .nil => 0
  | .cons _ tl => arrLen tl + 1

/-- `arr[n]` (`none` models `undefined`). -/
def arrGet : JsonArr → Nat → Option JsonValue
  | .nil, _ => none
  | .cons hd _, 0 => some hd
  | .cons _ tl, n + 1 => arrGet tl n

/-- `obj[key]` (`none` models `undefined`). -/
def objGet : JsonObj → String → Option JsonValue
  | .nil, _ => none
  | .cons k v tl, key => if k == key then some v else objGet tl key

/-- Is the value a non-null JS object (`typeof === "object" && !== null`)? -/
def isObjLike : JsonValue → Bool
  | .arr _ => true
  | .obj _ => true
  | _ => false

/-- One indexing step `currentValue[...]` of the navigation loop of
`expandSubtree`: arrays index by `parseInt(segment)`, objects by the raw
segment text. -/
def childAt (v : JsonValue) (seg : String) : Option JsonValue :=
  match v with
  | .arr xs =>
      match jsParseInt seg with
      | some n => if 0 ≤ n ∧ n.toNat < arrLen xs then arrGet xs n.toNat else none
      | none => none
  | .obj fs => objGet fs seg
  | _ => none

/-- The `for (const segment of pathSegments)` navigation loop of
`expandSubtree`, with its early `break` when the current value is `null`,
a primitive, or `undefined`. -/
def navAux : List String → Option JsonValue → Option JsonValue
  | [], cur => cur
  | seg :: rest, cur =>
      match cur with
      | some v => if isObjLike v then navAux rest (childAt v seg) else some v
      | none => none

mutual

/-- The `collectPaths(value, currentPath)` closure of `expandSubtree`. -/
def cpVal : JsonValue → String → Finset String → Finset String
  | .arr xs, currentPath, acc => cpArr xs 0 currentPath acc
  | .obj fs, currentPath, acc => cpObj fs currentPath acc
  | _, _, acc => acc

/-- `value.forEach((item, index) => ...)` of `collectPaths` over arrays. -/
def cpArr : JsonArr → Nat → String → Finset String → Finset String
  | .nil, _, _, acc => acc
  | .cons hd tl, idx, currentPath, acc =>
      let childPath := currentPath ++ "[" ++ toString idx ++ "]"
      cpArr tl (idx + 1) currentPath (cpVal hd childPath (insert childPath acc))

/-- `Object.keys(value).forEach((key) => ...)` of `collectPaths`. -/
def cpObj : JsonObj → String → Finset String → Finset String
  | .nil, _, acc => acc
  | .cons k v tl, currentPath, acc =>
      let childPath := if currentPath ≠ "" then currentPath ++ "." ++ k else k
      cpObj tl currentPath (cpVal v childPath (insert childPath acc))

end

/-- `expandSubtree(parentPath, data)` of `src/store/appStore.ts`
(lines 238-281).  Note: the source deletes the sentinels `__EXPAND_ALL__`
and `__EXPAND_TO_DEPTH_4__` from the expanded set, and returns only
`expandedPaths` (leaving `collapsedPaths` untouched). -/
def expandSubtree (s : AppState) (parentPath : String) (data : JsonValue) : AppState :=
  let newPaths := insert parentPath
    ((s.expandedPaths.erase "__EXPAND_ALL__").erase "__EXPAND_TO_DEPTH_4__")
  let currentValue := navAux (splitOnDelims parentPath) (some data)
  let finalPaths := match currentValue with
    | some v => if isObjLike v then cpVal v parentPath newPaths else newPaths
    | none => newPaths
  { s with expandedPaths := finalPaths }

/-- The spec's three-variant expansion-state machine (section 4.4). -/
inductive ExpansionState where
  | explicitSet (S : Finset String)
  | expandAllWithOverrides (C : Finset String)
  | expandToDepth (d : Nat) (C : Finset String)
deriving DecidableEq

/-- Abstraction from the store's sentinel encoding to the spec's
state machine, following the precedence of `JsonTreeNode.isExpanded`
(`TableView.tsx` lines 329-337): `__EXPAND_ALL__` means every node is open
modulo the collapsed overrides, `__EXPAND_TO_DEPTH_2__` means open up to
depth 2 modulo the overrides, otherwise the expanded set is explicit. -/
def toExpansionState (s : AppState) : ExpansionState :=
  if "__EXPAND_ALL__" ∈ s.expandedPaths then .expandAllWithOverrides s.collapsedPaths
  else if "__EXPAND_TO_DEPTH_2__" ∈ s.expandedPaths then .expandToDepth 2 s.collapsedPaths
  else .explicitSet s.expandedPaths

/-- `LAZY_LOAD_THRESHOLD` of `TableView.tsx` (line 244). -/
def LAZY_LOAD_THRESHOLD : Nat := 100

/-- `LAZY_LOAD_BATCH_SIZE` of `TableView.tsx` (line 245). -/
def LAZY_LOAD_BATCH_SIZE : Nat := 50

/-- `requiresPagination = totalChildren > LAZY_LOAD_THRESHOLD`. -/
def requiresPagination (totalChildren : Nat) : Bool :=
  totalChildren > LAZY_LOAD_THRESHOLD

/-- The initialiser of the `displayedCount` state:
`requiresPagination ? LAZY_LOAD_BATCH_SIZE : totalChildren`. -/
def initialDisplayedCount (totalChildren : Nat) : Nat :=
  if requiresPagination totalChildren then LAZY_LOAD_BATCH_SIZE else totalChildren

/-- The per-node pagination state of `JsonTreeNode`: the `isExpanded` flag
and the `displayedCount` (`shown`) counter. -/
structure NodePag where
  expanded : Bool
  shown : Nat
deriving DecidableEq, Repr

/-- The user gestures that touch a node's pagination state. -/
inductive PagEvent where
  | loadMore
  | loadAll
  | collapse
  | expand
deriving DecidableEq, Repr

/-- One step of the per-node pagination state:
`handleLoadMore` is `setDisplayedCount(prev => Math.min(prev +
LAZY_LOAD_BATCH_SIZE, totalChildren))`, `handleLoadAll` sets it to
`totalChildren` (both reachable only on an expanded node, since the buttons
render under `isExpanded`), and the `useMemo` reset fires when the node is
not expanded, putting `shown` back to the initial batch size. -/
def stepPag (totalChildren : Nat) (s : NodePag) : PagEvent → NodePag
  | .loadMore =>
      if s.expanded then
        { s with shown := min (s.shown + LAZY_LOAD_BATCH_SIZE) totalChildren }
      else s
  | .loadAll => if s.expanded then { s with shown := totalChildren } else s
  | .collapse => { expanded := false, shown := initialDisplayedCount totalChildren }
  | .expand => { s with expanded := true }

/-- A sequence of pagination steps. -/
def stepsPag (totalChildren : Nat) (s : NodePag) (evs : List PagEvent) : NodePag :=
  evs.foldl (stepPag totalChildren) s

/-- `hasMore = displayedCount < totalChildren`: whether the synthetic
load-more continuation row is rendered. -/
def hasMore (displayedCount totalChildren : Nat) : Bool :=
  displayedCount < totalChildren

/-- `remainingCount = totalChildren - displayedCount`, the number reported
by the load-more row. -/
def remainingCount (displayedCount totalChildren : Nat) : Nat :=
  totalChildren - displayedCount

/-- `childEntries.slice(0, displayedCount).length`: how many child rows are
rendered. -/
def displayedRows (displayedCount totalChildren : Nat) : Nat :=
  min displayedCount totalChildren

/-- The text `generatePath` appends for the non-initial segments of a path
(`pieceStr` at any position `i ≥ 1`; the emitted text does not depend on the
exact position). -/
def tailStr (format : PathFormat) : List Segment → String
  | [] => ""
  | s :: rest => pieceStr format 1 s ++ tailStr format rest

/-- Character-level form of the native-syntax tail for paths whose keys need
no escaping: `[idx]` for array indices, `.key` for keys. -/
def charsTail : List Segment → List Char
  | [] => []
  | s :: rest =>
      (if s.isArrayIndex then '[' :: (s.key.data ++ [']']) else '.' :: s.key.data)
        ++ charsTail rest

/-- A key the native syntax emits unquoted and the lenient parser recovers
verbatim: nonempty, containing none of `.` `[` `]` whitespace `-`, not purely
numeric, and neither beginning nor ending with a quote character. -/
def plainKeyB (k : String) : Bool :=
  match k.data with
  | [] => false
  | c :: cs =>
      (c :: cs).all (fun ch => !isPathSpecial ch) &&
      !((c :: cs).all Char.isDigit) &&
      !isQuote c && !isQuote ((c :: cs).getLast (List.cons_ne_nil c cs))

/-- A segment accepted by the amended round-trip property: an array index
with a nonempty digit-run key, or a plain key; the key of the first segment
of a path must additionally not begin with `$` (which `parsePath` strips). -/
def goodSeg (isFirst : Bool) (s : Segment) : Bool :=
  if s.isArrayIndex then !s.key.data.isEmpty && s.key.data.all Char.isDigit
  else
    plainKeyB s.key &&
    (!isFirst || (match s.key.data with | [] => false | c :: _ => !(c == '$')))

/-- All segments of a path accepted by the amended round-trip property. -/
def goodSegs : List Segment → Bool
  | [] => true
  | s :: rest => goodSeg true s && rest.all (goodSeg false)

/-! ### Helper lemmas -/

theorem mk_data_eq (s : String) : String.mk s.data = s := rfl

theorem genAux_append (f : PathFormat) (A B : List Segment) :
    ∀ i : Nat, genAux f i (A ++ B) = genAux f i A ++ genAux f (i + A.length) B := by
  induction A with
  | nil => intro i; simp [genAux]
  | cons a A ih =>
      intro i
      simp only [List.cons_append, genAux, List.length_cons, List.append_eq]
      rw [ih (i + 1), String.append_assoc]
      have h2 : i + 1 + A.length = i + (A.length + 1) := by omega
      rw [h2]

theorem pieceStr_pos (f : PathFormat) (s : Segment) {i : Nat} (hi : i ≠ 0) :
    pieceStr f i s = pieceStr f 1 s := by
  unfold pieceStr
  simp [hi]

theorem genAux_tail (f : PathFormat) :
    ∀ (rest : List Segment) {i : Nat}, i ≠ 0 → genAux f i rest = tailStr f rest := by
  intro rest
  induction rest with
  | nil => intro i _; rfl
  | cons s r ih =>
      intro i hi
      simp only [genAux, tailStr, pieceStr_pos f s hi, ih (Nat.succ_ne_zero i)]

/-! ### C6 -/

/-- C6: the claim states that an empty segment sequence serializes to the
root marker `$` in the DollarBracket (jsonpath) syntax; in the source,
`generatePath` returns the empty string for an empty segment list in every
format, including jsonpath. -/
theorem c6_counterexample :
    generatePath [] PathFormat.jsonpath = "" ∧
    generatePath [] PathFormat.jsonpath ≠ "$" := by
  constructor
  · rfl
  · decide

/-- C6 (amended): serializing an empty segment sequence yields empty text in
every addressing syntax, including DollarBracket (jsonpath). -/
theorem c6_empty_serialization (f : PathFormat) : generatePath [] f = "" := rfl

/-! ### C5 -/

/-- C5: the claim states that the BracketOnly (python) syntax emits every key
segment as a bracket-quoted token, including the first segment; in the
source, the first key segment is emitted as the raw key text. -/
theorem c5_counterexample :
    generatePath [Segment.mk "a" false] PathFormat.python = "a" ∧
    generatePath [Segment.mk "a" false] PathFormat.python ≠ "[\x27a\x27]" := by
  constructor
  · rfl
  · decide

/-- C5 (amended): in the BracketOnly (python) syntax every key segment at
position 1 or later is emitted as a bracket-quoted token with internal
single quotes backslash-escaped, but the first segment of a path, when a
key, is emitted as the raw key text. -/
theorem c5_bracket_only_amended :
    (∀ (k : String) (post : List Segment),
       generatePath (Segment.mk k false :: post) PathFormat.python
         = k ++ tailStr PathFormat.python post) ∧
    (∀ (pre : List Segment) (k : String) (post : List Segment), pre ≠ [] →
       generatePath (pre ++ Segment.mk k false :: post) PathFormat.python
         = generatePath pre PathFormat.python
             ++ ("[\x27" ++ String.mk (escSingle k.data) ++ "\x27]")
             ++ tailStr PathFormat.python post) := by
  constructor
  · intro k post
    show genAux PathFormat.python 0 (Segment.mk k false :: post) = _
    simp only [genAux, genAux_tail PathFormat.python post (Nat.succ_ne_zero 0)]
    rfl
  · intro pre k post hpre
    have hne : (pre ++ Segment.mk k false :: post).isEmpty = false := by
      cases pre with
      | nil => exact absurd rfl hpre
      | cons a A => rfl
    have hpe : pre.isEmpty = false := by
      cases pre with
      | nil => exact absurd rfl hpre
      | cons a A => rfl
    have hlen : pre.length ≠ 0 := by
      cases pre with
      | nil => exact absurd rfl hpre
      | cons a A => simp
    unfold generatePath
    rw [hne, hpe]
    simp only [Bool.false_eq_true, if_false]
    rw [genAux_append PathFormat.python pre (Segment.mk k false :: post) 0, Nat.zero_add]
    simp only [genAux]
    rw [pieceStr_pos PathFormat.python (Segment.mk k false) hlen,
        genAux_tail PathFormat.python post (Nat.succ_ne_zero pre.length)]
    have hp : pieceStr PathFormat.python 1 (Segment.mk k false)
        = "[\x27" ++ String.mk (escSingle k.data) ++ "\x27]" := by
      simp [pieceStr, escapeKey, jsStartsWith]
    rw [hp, ← String.append_assoc]

theorem c5_bracket_only_amended_witness :
    ([Segment.mk "x" false] : List Segment) ≠ [] ∧
    generatePath ([Segment.mk "x" false] ++ Segment.mk "b" false :: [])
        PathFormat.python
      = generatePath [Segment.mk "x" false] PathFormat.python
          ++ ("[\x27" ++ String.mk (escSingle "b".data) ++ "\x27]")
          ++ tailStr PathFormat.python [] :=
  ⟨by decide, c5_bracket_only_amended.2 [Segment.mk "x" false] "b" [] (by decide)⟩

/-! ### C10 -/

/-- C10: `clearJsonData` resets exactly the document-scoped fields (tree,
original text, file size, metadata, current path, hover position, filter
query, search query, expanded and collapsed path sets, error, loading
progress and message) and leaves every other store field unchanged, in
particular bookmarks, import history, path format, case-sensitivity,
hide-empty and truncate-values. -/
theorem c10_clearJsonData_frame (s : AppState) :
    (clearJsonData s).jsonData = none ∧
    (clearJsonData s).originalText = none ∧
    (clearJsonData s).fileSize = none ∧
    (clearJsonData s).metadata = none ∧
    (clearJsonData s).currentPath = none ∧
    (clearJsonData s).hoverPosition = none ∧
    (clearJsonData s).filterQuery = "" ∧
    (clearJsonData s).searchQuery = "" ∧
    (clearJsonData s).expandedPaths = ∅ ∧
    (clearJsonData s).collapsedPaths = ∅ ∧
    (clearJsonData s).error = none ∧
    (clearJsonData s).loadingProgress = 0 ∧
    (clearJsonData s).loadingMessage = "" ∧
    (clearJsonData s).bookmarks = s.bookmarks ∧
    (clearJsonData s).importHistory = s.importHistory ∧
    (clearJsonData s).pathFormat = s.pathFormat ∧
    (clearJsonData s).caseSensitive = s.caseSensitive ∧
    (clearJsonData s).hideEmpty = s.hideEmpty ∧
    (clearJsonData s).truncateValues = s.truncateValues ∧
    (clearJsonData s).isLoading = s.isLoading ∧
    (clearJsonData s).hoverPath = s.hoverPath ∧
    (clearJsonData s).activeFeature = s.activeFeature ∧
    (clearJsonData s).viewerMode = s.viewerMode ∧
    (clearJsonData s).extractionMode = s.extractionMode ∧
    (clearJsonData s).isFilterOpen = s.isFilterOpen ∧
    (clearJsonData s).searchCaseSensitive = s.searchCaseSensitive ∧
    (clearJsonData s).isSearchOpen = s.isSearchOpen ∧
    (clearJsonData s).currentSearchIndex = s.currentSearchIndex ∧
    (clearJsonData s).searchMatchCount = s.searchMatchCount ∧
    (clearJsonData s).showCopyNotification = s.showCopyNotification ∧
    (clearJsonData s).copyMessage = s.copyMessage ∧
    (clearJsonData s).isBookmarksOpen = s.isBookmarksOpen ∧
    (clearJsonData s).isShortcutsOpen = s.isShortcutsOpen :=
  ⟨rfl, rfl, rfl, rfl, rfl, rfl, rfl, rfl, rfl, rfl, rfl, rfl, rfl, rfl, rfl,
   rfl, rfl, rfl, rfl, rfl, rfl, rfl, rfl, rfl, rfl, rfl, rfl, rfl, rfl, rfl,
   rfl, rfl, rfl⟩

/-! ### C7 -/

/-- C7: for every node count, `expandAll` moves to depth-limited bulk
expansion `ExpandToDepth(2, empty)` when the count exceeds 5000 and to
`ExpandAllWithOverrides(empty)` otherwise, clearing the collapsed-override
set in both cases (sentinel encoding read back through `toExpansionState`). -/
theorem c7_expandAll (s : AppState) (n d : Nat) (h : s.metadata = some (JsonMetadata.mk n d)) :
    toExpansionState (expandAll s) =
      (if 5000 < n then ExpansionState.expandToDepth 2 ∅
       else ExpansionState.expandAllWithOverrides ∅) ∧
    (expandAll s).collapsedPaths = ∅ := by
  unfold expandAll
  rw [h]
  dsimp only
  by_cases hn : 5000 < n
  · have hz : n ≠ 0 := by omega
    have hcond : (decide (n ≠ 0) && decide (n > 5000)) = true := by
      simp only [Bool.and_eq_true, decide_eq_true_eq]
      exact ⟨hz, hn⟩
    rw [hcond, if_pos rfl]
    refine ⟨?_, rfl⟩
    have h1 : ¬ (("__EXPAND_ALL__" : String) ∈ ({"__EXPAND_TO_DEPTH_2__"} : Finset String)) := by
      decide
    have h2 : ("__EXPAND_TO_DEPTH_2__" : String) ∈ ({"__EXPAND_TO_DEPTH_2__"} : Finset String) := by
      decide
    simp [toExpansionState, h1, h2, hn]
  · have hd : decide (n > 5000) = false := decide_eq_false hn
    have hcond : (decide (n ≠ 0) && decide (n > 5000)) = false := by
      rw [hd, Bool.and_false]
    rw [hcond, if_neg Bool.false_ne_true]
    refine ⟨?_, rfl⟩
    have h1 : ("__EXPAND_ALL__" : String) ∈ ({"__EXPAND_ALL__"} : Finset String) := by decide
    simp [toExpansionState, h1, hn]

theorem c7_expandAll_witness :
    ({ defaultState with metadata := some (JsonMetadata.mk 6000 3) } : AppState).metadata
      = some (JsonMetadata.mk 6000 3) ∧
    (toExpansionState (expandAll { defaultState with metadata := some (JsonMetadata.mk 6000 3) }) =
      (if 5000 < 6000 then ExpansionState.expandToDepth 2 ∅
       else ExpansionState.expandAllWithOverrides ∅) ∧
     (expandAll { defaultState with metadata := some (JsonMetadata.mk 6000 3) }).collapsedPaths = ∅) :=
  ⟨rfl, c7_expandAll _ 6000 3 rfl⟩

/-! ### C8 -/

/-- C8: the claim states that toggling the same path twice always restores
both the expanded set and the collapsed-override set.  In the source, a
toggle outside bulk mode unconditionally clears `collapsedPaths`, so a state
with no bulk sentinel but a non-empty collapsed set (reachable, since
`expandSubtree` leaves `collapsedPaths` untouched when leaving bulk mode) is
not restored: here the collapsed set `{"a"}` ends up empty. -/
theorem c8_counterexample :
    togglePath (togglePath { defaultState with collapsedPaths := {"a"} } "b") "b"
      ≠ { defaultState with collapsedPaths := {"a"} } ∧
    (togglePath (togglePath { defaultState with collapsedPaths := {"a"} } "b") "b").collapsedPaths
      = ∅ ∧
    ({ defaultState with collapsedPaths := {"a"} } : AppState).collapsedPaths = {"a"} := by
  refine ⟨?_, by decide, rfl⟩
  decide

/-- C8 (amended): toggling the same path twice restores the expansion state
whenever the store is in a bulk mode (a sentinel is present), or, outside
bulk mode, whenever the collapsed-override set is already empty and the
toggled path is not itself one of the two bulk sentinels. -/
theorem c8_toggle_amended (s : AppState) (p : String)
    (h : ("__EXPAND_ALL__" ∈ s.expandedPaths ∨ "__EXPAND_TO_DEPTH_2__" ∈ s.expandedPaths) ∨
         (s.collapsedPaths = ∅ ∧ p ≠ "__EXPAND_ALL__" ∧ p ≠ "__EXPAND_TO_DEPTH_2__")) :
    togglePath (togglePath s p) p = s := by
  by_cases hb : ("__EXPAND_ALL__" ∈ s.expandedPaths ∨ "__EXPAND_TO_DEPTH_2__" ∈ s.expandedPaths)
  · unfold togglePath
    rw [if_pos hb]
    by_cases hp : p ∈ s.collapsedPaths
    · rw [if_pos hp]
      rw [if_pos hb, if_neg (Finset.not_mem_erase p s.collapsedPaths),
        Finset.insert_erase hp]
    · rw [if_neg hp]
      rw [if_pos hb, if_pos (Finset.mem_insert_self p s.collapsedPaths),
        Finset.erase_insert hp]
  · rcases h with h | ⟨hc, hp1, hp2⟩
    · exact absurd h hb
    unfold togglePath
    rw [if_neg hb]
    by_cases hp : p ∈ s.expandedPaths
    · rw [if_pos hp]
      have hb2 : ¬ ("__EXPAND_ALL__" ∈ s.expandedPaths.erase p ∨
          "__EXPAND_TO_DEPTH_2__" ∈ s.expandedPaths.erase p) := by
        intro hcon
        rcases hcon with hcon | hcon
        · exact hb (Or.inl (Finset.mem_of_mem_erase hcon))
        · exact hb (Or.inr (Finset.mem_of_mem_erase hcon))
      rw [if_neg hb2, if_neg (Finset.not_mem_erase p s.expandedPaths),
        Finset.insert_erase hp, ← hc]
    · rw [if_neg hp]
      have hb2 : ¬ ("__EXPAND_ALL__" ∈ insert p s.expandedPaths ∨
          "__EXPAND_TO_DEPTH_2__" ∈ insert p s.expandedPaths) := by
        intro hcon
        rcases hcon with hcon | hcon
        · rcases Finset.mem_insert.mp hcon with he | he
          · exact hp1 he.symm
          · exact hb (Or.inl he)
        · rcases Finset.mem_insert.mp hcon with he | he
          · exact hp2 he.symm
          · exact hb (Or.inr he)
      rw [if_neg hb2, if_pos (Finset.mem_insert_self p s.expandedPaths),
        Finset.erase_insert hp, ← hc]

theorem c8_toggle_amended_witness :
    ((("__EXPAND_ALL__" ∈ defaultState.expandedPaths ∨
        "__EXPAND_TO_DEPTH_2__" ∈ defaultState.expandedPaths) ∨
      (defaultState.collapsedPaths = ∅ ∧ ("x" : String) ≠ "__EXPAND_ALL__" ∧
        ("x" : String) ≠ "__EXPAND_TO_DEPTH_2__"))) ∧
    togglePath (togglePath defaultState "x") "x" = defaultState :=
  ⟨Or.inr ⟨rfl, by decide, by decide⟩,
   c8_toggle_amended defaultState "x" (Or.inr ⟨rfl, by decide, by decide⟩)⟩

/-! ### C4 -/

/-- C4: with the hide-empty rule active, a node whose path is in
`emptyPaths` is suppressed unless that path is also in `matchingPaths`
(a match is never hidden by the empty rule).  Settled against the
spec-modelled four-parameter `shouldShowNodeHideEmpty`, since the snapshot
under `src` lacks the hideEmpty-aware filter its callers invoke. -/
theorem c4_hide_empty_rule (path : String) (mp ep : List String)
    (he : ep.contains path = true) :
    (mp.contains path = false → shouldShowNodeHideEmpty path mp ep true = false) ∧
    (mp.contains path = true → shouldShowNodeHideEmpty path mp ep true = true) := by
  constructor
  · intro hm
    unfold shouldShowNodeHideEmpty
    rw [he, hm]
    simp
  · intro hm
    have hne : mp.isEmpty = false := by
      cases mp with
      | nil => simp at hm
      | cons a l => rfl
    unfold shouldShowNodeHideEmpty shouldShowNode
    rw [he, hm, hne]
    simp

theorem c4_hide_empty_rule_witness :
    (["a"].contains ("a" : String) = true) ∧
    (((["a"] : List String).contains ("a" : String) = false →
        shouldShowNodeHideEmpty "a" ["a"] ["a"] true = false) ∧
     ((["a"] : List String).contains ("a" : String) = true →
        shouldShowNodeHideEmpty "a" ["a"] ["a"] true = true)) :=
  ⟨by decide, c4_hide_empty_rule "a" ["a"] ["a"] (by decide)⟩

/-! ### C9 -/

theorem stepPag_mono (total : Nat) (s : NodePag) (e : PagEvent)
    (hst : s.shown ≤ total) (hex : s.expanded = true) (hne : e ≠ PagEvent.collapse) :
    s.shown ≤ (stepPag total s e).shown ∧ (stepPag total s e).shown ≤ total ∧
    (stepPag total s e).expanded = true := by
  cases e with
  | loadMore =>
      have h : stepPag total s .loadMore
          = { s with shown := min (s.shown + LAZY_LOAD_BATCH_SIZE) total } := by
        unfold stepPag
        rw [hex]
        simp
      rw [h]
      exact ⟨Nat.le_min.mpr ⟨Nat.le_add_right _ _, hst⟩, Nat.min_le_right _ _, hex⟩
  | loadAll =>
      have h : stepPag total s .loadAll = { s with shown := total } := by
        unfold stepPag
        rw [hex]
        simp
      rw [h]
      exact ⟨hst, Nat.le_refl total, hex⟩
  | collapse => exact absurd rfl hne
  | expand => exact ⟨Nat.le_refl _, hst, rfl⟩

/-- C9: while a node stays expanded its `displayedCount` never decreases
under any sequence of load-more / load-all / re-expand gestures (growing
only up to the child count); a collapse followed by a re-expand resets it to
the initial batch size; and a node with 120 children paginates to 50 child
rows plus a load-more row reporting 70 remaining. -/
theorem c9_pagination :
    (∀ (total : Nat) (s : NodePag) (evs : List PagEvent),
       s.shown ≤ total → s.expanded = true → (∀ e ∈ evs, e ≠ PagEvent.collapse) →
       s.shown ≤ (stepsPag total s evs).shown) ∧
    (∀ (total : Nat) (s : NodePag),
       stepsPag total s [PagEvent.collapse, PagEvent.expand]
         = NodePag.mk true (initialDisplayedCount total)) ∧
    (initialDisplayedCount 120 = 50 ∧ displayedRows 50 120 = 50 ∧
     hasMore 50 120 = true ∧ remainingCount 50 120 = 70) := by
  refine ⟨?_, fun total s => rfl, by decide, by decide, by decide, by decide⟩
  intro total s evs
  induction evs generalizing s with
  | nil => intro _ _ _; exact Nat.le_refl _
  | cons e evs ih =>
      intro hst hex hall
      have hne : e ≠ PagEvent.collapse := hall e (List.mem_cons_self e evs)
      obtain ⟨h1, h2, h3⟩ := stepPag_mono total s e hst hex hne
      exact Nat.le_trans h1
        (ih (stepPag total s e) h2 h3 (fun x hx => hall x (List.mem_cons_of_mem e hx)))

theorem c9_pagination_witness :
    ((NodePag.mk true 50).shown ≤ 120 ∧ (NodePag.mk true 50).expanded = true ∧
      (∀ e ∈ [PagEvent.loadMore], e ≠ PagEvent.collapse)) ∧
    (NodePag.mk true 50).shown ≤ (stepsPag 120 (NodePag.mk true 50) [PagEvent.loadMore]).shown :=
  ⟨⟨by decide, rfl, by decide⟩,
   c9_pagination.1 120 (NodePag.mk true 50) [PagEvent.loadMore] (by decide) rfl (by decide)⟩

/-! ### C3 -/

/-- C3: evidence for the sentinel-clearing slip in `expandSubtree`.  After
`expandAll` on a document with more than 5000 nodes the expanded set is the
sentinel `__EXPAND_TO_DEPTH_2__`; `expandSubtree` then comments "Remove
expand all flags if present" but deletes `__EXPAND_ALL__` and the never-used
`__EXPAND_TO_DEPTH_4__`, so the depth sentinel survives and the store stays
in depth-limited bulk mode instead of moving to the explicit state the spec
describes. -/
theorem c3_expandSubtree_bug :
    (expandSubtree (expandAll { defaultState with metadata := some (JsonMetadata.mk 6000 3) })
        "a" (JsonValue.obj (.cons "a" (.obj (.cons "b" (.num 1) .nil)) .nil))).expandedPaths
      = {"__EXPAND_TO_DEPTH_2__", "a", "a.b"} ∧
    toExpansionState
        (expandSubtree (expandAll { defaultState with metadata := some (JsonMetadata.mk 6000 3) })
          "a" (JsonValue.obj (.cons "a" (.obj (.cons "b" (.num 1) .nil)) .nil)))
      = ExpansionState.expandToDepth 2 ∅ := by
  constructor
  · decide
  · decide

/-! ### C2 -/

/-- C2: the claim states that every proper ancestor of a matching path is
visible under `shouldShowNode`.  In the source, ancestor detection is a
string-prefix test against `.` and `[`, but a key that needs escaping is
serialized as a quoted token *not* preceded by a dot, so for the tree
`\x7b"a": \x7b"b c": true\x7d\x7d` and query `"b c"` the single match is
`a"b c"`, which extends `a` with `"` — and the proper ancestor `a` is
reported not visible. -/
theorem c2_counterexample :
    getMatchingPaths (JsonValue.obj (.cons "a" (.obj (.cons "b c" (.bool true) .nil)) .nil))
        "b c" PathFormat.jmespath false = ["a\"b c\""] ∧
    generatePath [Segment.mk "a" false, Segment.mk "b c" false] PathFormat.jmespath
      = "a\"b c\"" ∧
    generatePath [Segment.mk "a" false] PathFormat.jmespath = "a" ∧
    shouldShowNode "a" ["a\"b c\""] = false :=
  ⟨by decide, by decide, by decide, by decide⟩

/-- C2 (amended): ancestor-inclusion holds for an ancestor `take k segs` of a
matching path `segs` provided the segment of `segs` directly below that
ancestor is an array index, or is a key that needs no escaping and does not
itself begin with a double quote — exactly the cases in which the canonical
serialization continues with `[` or `.` after the ancestor's serialization. -/
theorem c2_ancestor_amended (t : JsonValue) (q : String) (cs : Bool)
    (segs : List Segment) (k : Nat) (s : Segment)
    (hmem : generatePath segs PathFormat.jmespath
      ∈ getMatchingPaths t q PathFormat.jmespath cs)
    (hget : segs[k]? = some s) (hk : 1 ≤ k)
    (hgood : s.isArrayIndex = true ∨
      (needsEscapeB s.key = false ∧ jsStartsWith s.key "\"" = false)) :
    shouldShowNode (generatePath (List.take k segs) PathFormat.jmespath)
      (getMatchingPaths t q PathFormat.jmespath cs) = true := by
  obtain ⟨hlt, hgetel⟩ := List.getElem?_eq_some_iff.mp hget
  have hk0 : k ≠ 0 := by omega
  have hAlen : (segs.take k).length = k := by
    rw [List.length_take]
    omega
  have hsne : segs.isEmpty = false := by
    cases segs with
    | nil => simp at hlt
    | cons a l => rfl
  have hAne : (segs.take k).isEmpty = false := by
    cases hA : segs.take k with
    | nil => rw [hA] at hAlen; simp at hAlen; omega
    | cons a l => rfl
  have hdecomp : segs = segs.take k ++ s :: segs.drop (k + 1) := by
    conv_lhs => rw [← List.take_append_drop k segs]
    rw [List.drop_eq_getElem_cons hlt, hgetel]
  have hgp_segs : generatePath segs PathFormat.jmespath
      = genAux PathFormat.jmespath 0 segs := by
    unfold generatePath
    rw [hsne]
    simp
  have hgp_A : generatePath (segs.take k) PathFormat.jmespath
      = genAux PathFormat.jmespath 0 (segs.take k) := by
    unfold generatePath
    rw [hAne]
    simp
  have h1 : genAux PathFormat.jmespath 0 segs
      = genAux PathFormat.jmespath 0 (segs.take k)
          ++ (pieceStr PathFormat.jmespath 1 s
              ++ genAux PathFormat.jmespath (k + 1) (segs.drop (k + 1))) := by
    conv_lhs => rw [hdecomp]
    rw [genAux_append, Nat.zero_add, hAlen]
    simp only [genAux]
    rw [pieceStr_pos PathFormat.jmespath s hk0]
  have hpiece : ∃ r, ((pieceStr PathFormat.jmespath 1 s).data = '.' :: r ∨
      (pieceStr PathFormat.jmespath 1 s).data = '[' :: r) := by
    by_cases hidx : s.isArrayIndex = true
    · refine ⟨s.key.data ++ [']'], Or.inr ?_⟩
      unfold pieceStr
      simp only [hidx, eq_self_iff_true, if_true]
      rfl
    · obtain ⟨hnee, hq⟩ := hgood.resolve_left hidx
      have hidx2 : s.isArrayIndex = false := by
        cases hh : s.isArrayIndex
        · rfl
        · exact absurd hh hidx
      have hesc : escapeKey s.key PathFormat.jmespath = s.key := by
        unfold escapeKey
        rw [hnee]
        simp
      refine ⟨s.key.data, Or.inl ?_⟩
      unfold pieceStr
      simp only [hidx2, Bool.false_eq_true, if_false, one_ne_zero]
      simp [hesc, hq]
  obtain ⟨r, hr⟩ := hpiece
  have hmpne : (getMatchingPaths t q PathFormat.jmespath cs).isEmpty = false := by
    cases hmp : getMatchingPaths t q PathFormat.jmespath cs with
    | nil => rw [hmp] at hmem; simp at hmem
    | cons a l => rfl
  unfold shouldShowNode
  rw [hmpne]
  simp only [Bool.false_eq_true, if_false]
  cases hcont : (getMatchingPaths t q PathFormat.jmespath cs).contains
      (generatePath (List.take k segs) PathFormat.jmespath) with
  | true => simp
  | false =>
      simp only [Bool.false_eq_true, if_false]
      rw [List.any_eq_true]
      refine ⟨generatePath segs PathFormat.jmespath, hmem, ?_⟩
      rw [Bool.or_eq_true]
      rcases hr with hdot | hbr
      · left
        unfold jsStartsWith
        rw [List.isPrefixOf_iff_prefix, String.data_append, hgp_segs, h1,
          String.data_append, String.data_append, ← hgp_A, hdot]
        exact ⟨r ++ (genAux PathFormat.jmespath (k + 1) (segs.drop (k + 1))).data,
          by simp [List.append_assoc]⟩
      · right
        unfold jsStartsWith
        rw [List.isPrefixOf_iff_prefix, String.data_append, hgp_segs, h1,
          String.data_append, String.data_append, ← hgp_A, hbr]
        exact ⟨r ++ (genAux PathFormat.jmespath (k + 1) (segs.drop (k + 1))).data,
          by simp [List.append_assoc]⟩

theorem c2_ancestor_amended_witness :
    (generatePath [Segment.mk "users" false, Segment.mk "0" true, Segment.mk "name" false]
        PathFormat.jmespath
      ∈ getMatchingPaths
          (JsonValue.obj (.cons "users"
            (.arr (.cons (JsonValue.obj (.cons "name" (.str "Ann") .nil)) .nil)) .nil))
          "Ann" PathFormat.jmespath false) ∧
    ([Segment.mk "users" false, Segment.mk "0" true, Segment.mk "name" false][1]?
      = some (Segment.mk "0" true)) ∧
    shouldShowNode
        (generatePath
          (List.take 1 [Segment.mk "users" false, Segment.mk "0" true, Segment.mk "name" false])
          PathFormat.jmespath)
        (getMatchingPaths
          (JsonValue.obj (.cons "users"
            (.arr (.cons (JsonValue.obj (.cons "name" (.str "Ann") .nil)) .nil)) .nil))
          "Ann" PathFormat.jmespath false) = true :=
  ⟨by decide, by decide,
   c2_ancestor_amended _ _ _ _ 1 (Segment.mk "0" true) (by decide) (by decide)
     (Nat.le_refl 1) (Or.inl rfl)⟩

/-! ### C1 helper lemmas -/

theorem takeWhile_app_all {p : Char → Bool} (a b : List Char)
    (ha : ∀ c ∈ a, p c = true) (hb : ∀ d, b.head? = some d → p d = false) :
    (a ++ b).takeWhile p = a ∧ (a ++ b).dropWhile p = b := by
  induction a with
  | nil =>
      simp only [List.nil_append]
      cases b with
      | nil => exact ⟨rfl, rfl⟩
      | cons d bs =>
          have hd := hb d rfl
          exact ⟨by simp [List.takeWhile_cons, hd], by simp [List.dropWhile_cons, hd]⟩
  | cons c a ih =>
      have hc := ha c (List.mem_cons_self c a)
      obtain ⟨ih1, ih2⟩ := ih (fun x hx => ha x (List.mem_cons_of_mem c hx))
      constructor
      · simp [List.takeWhile_cons, hc, ih1]
      · simp [List.dropWhile_cons, hc, ih2]

theorem charsTail_shape (rest : List Segment) :
    charsTail rest = [] ∨ ∃ t, (charsTail rest = '.' :: t ∨ charsTail rest = '[' :: t) := by
  cases rest with
  | nil => exact Or.inl rfl
  | cons s r =>
      cases hidx : s.isArrayIndex
      · exact Or.inr ⟨s.key.data ++ charsTail r, Or.inl (by simp [charsTail, hidx])⟩
      · exact Or.inr ⟨s.key.data ++ ']' :: charsTail r, Or.inr (by simp [charsTail, hidx])⟩

theorem charsTail_head_not_keyChar (rest : List Segment) :
    ∀ d, (charsTail rest).head? = some d → keyChar d = false := by
  intro d hd
  rcases charsTail_shape rest with h | ⟨t, h | h⟩
  · rw [h] at hd
    simp at hd
  · rw [h] at hd
    simp only [List.head?_cons, Option.some.injEq] at hd
    rw [← hd]
    rfl
  · rw [h] at hd
    simp only [List.head?_cons, Option.some.injEq] at hd
    rw [← hd]
    rfl

theorem keyChar_of_not_special (c : Char) (h : isPathSpecial c = false) : keyChar c = true := by
  unfold isPathSpecial at h
  simp only [Bool.or_eq_false_iff] at h
  obtain ⟨⟨⟨⟨h1, h2⟩, h3⟩, h4⟩, h5⟩ := h
  unfold keyChar
  simp [h1, h2, h3]

theorem plainKey_parts (k : String) (hk : plainKeyB k = true) :
    k.data ≠ [] ∧ (∀ c ∈ k.data, keyChar c = true) ∧
    (∀ c, k.data.head? = some c → isQuote c = false) ∧
    (∀ c, k.data.getLast? = some c → isQuote c = false) := by
  unfold plainKeyB at hk
  cases hd : k.data with
  | nil =>
      rw [hd] at hk
      simp at hk
  | cons a as =>
      rw [hd] at hk
      simp only [Bool.and_eq_true] at hk
      obtain ⟨⟨⟨hall, hnotdig⟩, hqa⟩, hqlast⟩ := hk
      have hqa2 : isQuote a = false := by simpa using hqa
      have hql2 : isQuote ((a :: as).getLast (List.cons_ne_nil a as)) = false := by
        simpa using hqlast
      refine ⟨by simp, ?_, ?_, ?_⟩
      · intro c hc
        refine keyChar_of_not_special c ?_
        have h2 := List.all_eq_true.mp hall c hc
        simpa using h2
      · intro c hc
        simp only [List.head?_cons, Option.some.injEq] at hc
        rw [← hc]
        exact hqa2
      · intro c hc
        rw [List.getLast?_eq_getLast (a :: as) (List.cons_ne_nil a as),
          Option.some.injEq] at hc
        rw [← hc]
        exact hql2

theorem needsEscapeB_of_plain (k : String) (hk : plainKeyB k = true) :
    needsEscapeB k = false := by
  unfold plainKeyB at hk
  cases hd : k.data with
  | nil =>
      rw [hd] at hk
      simp at hk
  | cons a as =>
      rw [hd] at hk
      simp only [Bool.and_eq_true] at hk
      obtain ⟨⟨⟨hall, hnotdig⟩, hqa⟩, hqlast⟩ := hk
      unfold needsEscapeB
      rw [hd]
      have hany : (a :: as).any isPathSpecial = false := by
        cases hx : (a :: as).any isPathSpecial
        · rfl
        · obtain ⟨c, hc, hcs⟩ := List.any_eq_true.mp hx
          have h2 := List.all_eq_true.mp hall c hc
          rw [hcs] at h2
          simp at h2
      have hdig : (a :: as).all Char.isDigit = false := by
        cases hx : (a :: as).all Char.isDigit
        · rfl
        · rw [hx] at hnotdig
          simp at hnotdig
      rw [hany, hdig]
      simp

theorem startsWithQuote_false (k : String) (a : Char) (as : List Char)
    (hd : k.data = a :: as) (hq : isQuote a = false) :
    jsStartsWith k "\"" = false := by
  unfold jsStartsWith
  rw [hd]
  unfold isQuote at hq
  simp only [Bool.or_eq_false_iff] at hq
  have hqa : ('"' == a) = false := by
    rw [beq_eq_false_iff_ne]
    exact fun hcc => (beq_eq_false_iff_ne.mp hq.1) hcc.symm
  show (['"'].isPrefixOf (a :: as)) = false
  simp [List.isPrefixOf, hqa]

theorem stripQuotes_eq_self (l : List Char) (hne : l ≠ [])
    (hh : ∀ c, l.head? = some c → isQuote c = false)
    (hl : ∀ c, l.getLast? = some c → isQuote c = false) :
    stripQuotes l = l := by
  cases l with
  | nil => exact absurd rfl hne
  | cons c cs =>
      have hq1 : isQuote c = false := hh c rfl
      unfold stripQuotes
      simp only [hq1, Bool.false_eq_true, if_false]
      cases hrev : (c :: cs).reverse with
      | nil =>
          exact absurd hrev (by simp)
      | cons d ds =>
          have hd : (c :: cs).getLast? = some d := by
            rw [← List.head?_reverse, hrev]
            rfl
          simp [hl d hd]

theorem escapeKey_jmespath_plain (k : String) (hk : plainKeyB k = true) :
    escapeKey k PathFormat.jmespath = k := by
  unfold escapeKey
  rw [needsEscapeB_of_plain k hk]
  simp

theorem pieceStr_key_plain (s : Segment) (hidx : s.isArrayIndex = false)
    (hk : plainKeyB s.key = true) {i : Nat} (hi : i ≠ 0) :
    pieceStr PathFormat.jmespath i s = "." ++ s.key := by
  obtain ⟨hne, hkc, hq1, hq2⟩ := plainKey_parts s.key hk
  cases hd : s.key.data with
  | nil => exact absurd hd hne
  | cons a as =>
      have hq := startsWithQuote_false s.key a as hd (hq1 a (by rw [hd]; rfl))
      unfold pieceStr
      simp only [hidx, Bool.false_eq_true, if_false]
      rw [if_neg hi]
      simp [escapeKey_jmespath_plain s.key hk, hq]

theorem pieceStr_index (s : Segment) (hidx : s.isArrayIndex = true) (i : Nat) :
    pieceStr PathFormat.jmespath i s = "[" ++ s.key ++ "]" := by
  unfold pieceStr
  simp [hidx]

theorem goodSeg_key (s : Segment) (hidx : s.isArrayIndex = false)
    (hs : goodSeg false s = true) : plainKeyB s.key = true := by
  unfold goodSeg at hs
  rw [hidx] at hs
  simp at hs
  exact hs

theorem goodSeg_index (s : Segment) (hidx : s.isArrayIndex = true)
    (hs : goodSeg false s = true) :
    s.key.data ≠ [] ∧ s.key.data.all Char.isDigit = true := by
  unfold goodSeg at hs
  rw [hidx] at hs
  simp only [if_true, eq_self_iff_true, Bool.and_eq_true] at hs
  obtain ⟨h1, h2⟩ := hs
  refine ⟨?_, h2⟩
  intro hnil
  rw [hnil] at h1
  simp at h1

theorem genAux_data_tail (rest : List Segment) (h : rest.all (goodSeg false) = true) :
    ∀ {i : Nat}, i ≠ 0 → (genAux PathFormat.jmespath i rest).data = charsTail rest := by
  induction rest with
  | nil =>
      intro i _
      rfl
  | cons s r ih =>
      intro i hi
      rw [List.all_cons, Bool.and_eq_true] at h
      obtain ⟨hs, hr⟩ := h
      simp only [genAux, String.data_append]
      rw [ih hr (Nat.succ_ne_zero i)]
      cases hidx : s.isArrayIndex
      · rw [pieceStr_key_plain s hidx (goodSeg_key s hidx hs) hi]
        simp [charsTail, hidx, String.data_append]
      · rw [pieceStr_index s hidx]
        simp [charsTail, hidx, String.data_append]

theorem scan_cons_key {c : Char} (cs : List Char) (h : keyChar c = true) :
    scan (c :: cs)
      = Segment.mk (String.mk (stripQuotes (c :: cs.takeWhile keyChar))) false
        :: scan (cs.dropWhile keyChar) := by
  rw [scan.eq_def]
  simp [h]

theorem scan_cons_dot {d : Char} (ds : List Char) (h : keyChar d = true) :
    scan ('.' :: d :: ds)
      = Segment.mk (String.mk (stripQuotes (d :: ds.takeWhile keyChar))) false
        :: scan (ds.dropWhile keyChar) := by
  have hdot : keyChar '.' = false := rfl
  rw [scan.eq_def]
  simp [h, hdot]

theorem scan_cons_bracket (digits rest : List Char) (hne : digits ≠ [])
    (hspan1 : (digits ++ ']' :: rest).takeWhile Char.isDigit = digits)
    (hspan2 : (digits ++ ']' :: rest).dropWhile Char.isDigit = ']' :: rest) :
    scan ('[' :: (digits ++ ']' :: rest))
      = Segment.mk (String.mk digits) true :: scan rest := by
  have hbr : keyChar '[' = false := rfl
  rw [scan.eq_def]
  simp [hbr, hspan1, hspan2, hne]

theorem scan_charsTail (rest : List Segment) (h : rest.all (goodSeg false) = true) :
    scan (charsTail rest) = rest := by
  induction rest with
  | nil =>
      have h0 : charsTail [] = [] := rfl
      rw [h0, scan.eq_def]
  | cons s r ih =>
      rw [List.all_cons, Bool.and_eq_true] at h
      obtain ⟨hs, hr⟩ := h
      cases hidx : s.isArrayIndex
      · have hplain := goodSeg_key s hidx hs
        obtain ⟨hne, hkc, hq1, hq2⟩ := plainKey_parts s.key hplain
        cases hd : s.key.data with
        | nil => exact absurd hd hne
        | cons a as =>
            have hchars : charsTail (s :: r) = '.' :: a :: (as ++ charsTail r) := by
              simp [charsTail, hidx, hd]
            rw [hchars]
            have hka : keyChar a = true := hkc a (by rw [hd]; exact List.mem_cons_self a as)
            rw [scan_cons_dot (as ++ charsTail r) hka]
            have hspan := takeWhile_app_all as (charsTail r)
              (fun x hx => hkc x (by rw [hd]; exact List.mem_cons_of_mem a hx))
              (charsTail_head_not_keyChar r)
            rw [hspan.1, hspan.2]
            have hstrip : stripQuotes (a :: as) = a :: as :=
              stripQuotes_eq_self (a :: as) (List.cons_ne_nil a as)
                (fun x hx => hq1 x (by rw [hd]; exact hx))
                (fun x hx => hq2 x (by rw [hd]; exact hx))
            rw [hstrip, ← hd, mk_data_eq]
            have hseg : Segment.mk s.key false = s := by
              cases s with
              | mk k b =>
                  dsimp at hidx
                  rw [hidx]
            rw [hseg, ih hr]
      · obtain ⟨hneD, hdigits⟩ := goodSeg_index s hidx hs
        have hchars : charsTail (s :: r) = '[' :: (s.key.data ++ ']' :: charsTail r) := by
          simp [charsTail, hidx]
        rw [hchars]
        have hspan := takeWhile_app_all (p := Char.isDigit) s.key.data (']' :: charsTail r)
          (List.all_eq_true.mp hdigits)
          (by
            intro d hdh
            have hdj : (']' : Char) = d := by simpa using hdh
            rw [← hdj]
            rfl)
        rw [scan_cons_bracket s.key.data (charsTail r) hneD hspan.1 hspan.2, mk_data_eq]
        have hseg : Segment.mk s.key true = s := by
          cases s with
          | mk k b =>
              dsimp at hidx
              rw [hidx]
        rw [hseg, ih hr]

theorem parsePath_not_dollar (p : String) (a : Char) (t : List Char)
    (hd : p.data = a :: t) (ha : (a == '$') = false) :
    parsePath p = scan (a :: t) := by
  unfold parsePath
  rw [hd]
  split
  · next r heq =>
      injection heq with h1 h2
      rw [h1] at ha
      simp at ha
  · rfl

/-! ### C1 -/

/-- C1: the claim states that native-syntax serialization round-trips through
`parsePath` for every path of non-escaping keys; the key `$` needs no
escaping under the source's rule, yet it serializes to `$`, which `parsePath`
strips as a JSONPath root marker, yielding the empty path. -/
theorem c1_counterexample :
    needsEscapeB "$" = false ∧
    parsePath (generatePath [Segment.mk "$" false] PathFormat.jmespath) = [] ∧
    ([] : List Segment) ≠ [Segment.mk "$" false] := by
  refine ⟨by decide, ?_, by decide⟩
  have h : generatePath [Segment.mk "$" false] PathFormat.jmespath = "$" := by decide
  rw [h]
  simp [parsePath, scan]

/-- C1 (amended): `parsePath (generatePath segs jmespath) = segs` for every
path whose array-index segments carry a nonempty digit-run key and whose key
segments are non-escaping (no `.` `[` `]` whitespace `-`, not purely
numeric) and additionally nonempty, not beginning or ending with a quote
character, and — for the first segment — not beginning with `$`. -/
theorem c1_roundtrip_amended (segs : List Segment) (h : goodSegs segs = true) :
    parsePath (generatePath segs PathFormat.jmespath) = segs := by
  cases segs with
  | nil =>
      have hgen : generatePath [] PathFormat.jmespath = "" := rfl
      rw [hgen]
      simp [parsePath, scan]
  | cons s0 rest =>
      unfold goodSegs at h
      rw [Bool.and_eq_true] at h
      obtain ⟨h0, hrest⟩ := h
      have hne : (s0 :: rest).isEmpty = false := rfl
      have hgen : generatePath (s0 :: rest) PathFormat.jmespath
          = genAux PathFormat.jmespath 0 (s0 :: rest) := by
        unfold generatePath
        rw [hne]
        simp
      cases hidx : s0.isArrayIndex
      · have hkey : plainKeyB s0.key = true ∧
            (match s0.key.data with | [] => false | c :: _ => !(c == '$')) = true := by
          unfold goodSeg at h0
          rw [hidx] at h0
          simp only [Bool.false_eq_true, if_false, Bool.not_false, Bool.true_or,
            Bool.false_or, Bool.and_eq_true] at h0
          exact h0
        obtain ⟨hp, hm⟩ := hkey
        obtain ⟨hneK, hkc, hq1, hq2⟩ := plainKey_parts s0.key hp
        cases hd : s0.key.data with
        | nil => exact absurd hd hneK
        | cons a as =>
            have hdollar : (a == '$') = false := by
              rw [hd] at hm
              have h2 : ¬ (a = '$') := by simpa using hm
              exact beq_eq_false_iff_ne.mpr h2
            have hpiece0 : pieceStr PathFormat.jmespath 0 s0 = s0.key := by
              unfold pieceStr
              simp [hidx, escapeKey_jmespath_plain s0.key hp]
            have hdata : (generatePath (s0 :: rest) PathFormat.jmespath).data
                = a :: (as ++ charsTail rest) := by
              rw [hgen]
              simp only [genAux, String.data_append, hpiece0]
              rw [genAux_data_tail rest hrest (Nat.succ_ne_zero 0), hd]
              simp
            rw [parsePath_not_dollar _ a (as ++ charsTail rest) hdata hdollar]
            have hka : keyChar a = true := hkc a (by rw [hd]; exact List.mem_cons_self a as)
            rw [scan_cons_key (as ++ charsTail rest) hka]
            have hspan := takeWhile_app_all as (charsTail rest)
              (fun x hx => hkc x (by rw [hd]; exact List.mem_cons_of_mem a hx))
              (charsTail_head_not_keyChar rest)
            rw [hspan.1, hspan.2]
            have hstrip : stripQuotes (a :: as) = a :: as :=
              stripQuotes_eq_self (a :: as) (List.cons_ne_nil a as)
                (fun x hx => hq1 x (by rw [hd]; exact hx))
                (fun x hx => hq2 x (by rw [hd]; exact hx))
            rw [hstrip, ← hd, mk_data_eq]
            have hseg : Segment.mk s0.key false = s0 := by
              cases s0 with
              | mk k b =>
                  dsimp at hidx
                  rw [hidx]
            rw [hseg, scan_charsTail rest hrest]
      · have hdig : s0.key.data ≠ [] ∧ s0.key.data.all Char.isDigit = true := by
          refine goodSeg_index s0 hidx ?_
          unfold goodSeg at h0 ⊢
          rw [hidx] at h0 ⊢
          exact h0
        obtain ⟨hneD, hdigits⟩ := hdig
        have hdata : (generatePath (s0 :: rest) PathFormat.jmespath).data
            = '[' :: (s0.key.data ++ ']' :: charsTail rest) := by
          rw [hgen]
          simp only [genAux, String.data_append]
          rw [pieceStr_index s0 hidx, genAux_data_tail rest hrest (Nat.succ_ne_zero 0)]
          simp [String.data_append]
        rw [parsePath_not_dollar _ '[' (s0.key.data ++ ']' :: charsTail rest) hdata (by decide)]
        have hspan := takeWhile_app_all (p := Char.isDigit) s0.key.data (']' :: charsTail rest)
          (List.all_eq_true.mp hdigits)
          (by
            intro d hdh
            have hdj : (']' : Char) = d := by simpa using hdh
            rw [← hdj]
            rfl)
        rw [scan_cons_bracket s0.key.data (charsTail rest) hneD hspan.1 hspan.2, mk_data_eq]
        have hseg : Segment.mk s0.key true = s0 := by
          cases s0 with
          | mk k b =>
              dsimp at hidx
              rw [hidx]
        rw [hseg, scan_charsTail rest hrest]

theorem c1_roundtrip_amended_witness :
    goodSegs [Segment.mk "users" false, Segment.mk "0" true, Segment.mk "name" false] = true ∧
    parsePath (generatePath
        [Segment.mk "users" false, Segment.mk "0" true, Segment.mk "name" false]
        PathFormat.jmespath)
      = [Segment.mk "users" false, Segment.mk "0" true, Segment.mk "name" false] :=
  ⟨by decide,
   c1_roundtrip_amended
     [Segment.mk "users" false, Segment.mk "0" true, Segment.mk "name" false] (by decide)⟩

end JsonMapper
